import Mathlib

/-!
Verification of the derived-analytics core of the slapbook client
(`src/app/profile/[username]/page.tsx` and `src/app/post/[id]/page.tsx`).

Modelling conventions (shallow embedding):

* An instant (a JS `Date` / ISO timestamp) is an integer number of
  milliseconds since the Unix epoch (`ℤ`).
* The viewer's local timezone is a fixed offset `tz` in milliseconds added to
  a UTC instant to obtain local wall-clock time.  The source does all date
  arithmetic through the JS `Date` local-calendar API; with a fixed offset,
  the local calendar day of an instant `t` is `(t + tz).ediv msPerDay`
  (floor division, matching how the local Y-M-D triple changes every
  86 400 000 local milliseconds).  The source's `dateKeyLocal` renders that
  local day as a zero-padded `YYYY-MM-DD` string used only as a set key;
  since the string is injective over local calendar days, the model uses the
  local day number itself as the key.
* JS numbers carrying minute amounts are binary64 doubles; each stored
  value is represented by the exact rational it denotes, so `minutes` is
  `Option ℚ` (`null` is `none`).  The `+=` accumulation is modelled twice:
  once with exact rational addition (`weeklyTotals`, `totalsByUser`, the
  idealization) and once under binary64 round-to-nearest-even
  (`weeklyTotalsDbl`, `totalsByUserDbl`, built on `roundDouble`), which is
  what the program actually computes.  `category` is the closed three-value
  enumeration from the TypeScript type.  A second, raw variant with
  `category : String` models the JS runtime view where a value outside the
  enumeration can reach the aggregators.
-/

/-- Milliseconds per day, the unit of `Date.setDate` steps. -/
def msPerDay : ℤ := 86400000

/-- Local calendar-day key of instant `t` for timezone offset `tz`: the model
of the source's `dateKeyLocal` (which formats the local date as
`YYYY-MM-DD`; keys are identified with local day numbers, see module
docstring). -/
def dateKeyLocal (tz t : ℤ) : ℤ := (t + tz) / msPerDay

/-- JS `Date.getDay` of a local day number: Sunday = 0 … Saturday = 6.
Day 0 (1970-01-01) was a Thursday, hence the `+ 4`. -/
def weekdayOf (d : ℤ) : ℤ := (d + 4) % 7

/-- The instant of local midnight of local day `d` (what
`setHours(0,0,0,0)` produces for any instant on that local day). -/
def localMidnight (tz d : ℤ) : ℤ := d * msPerDay - tz

/-- Model of `startOfWeekMondayLocal` (identical in both source pages):
take the local day of `now`, compute `diff = (day == 0 ? -6 : 1) - day`
from the Sunday-based weekday, move by `diff` days and zero the time of
day. -/
def startOfWeekMondayLocal (tz now : ℤ) : ℤ :=
  localMidnight tz
    (dateKeyLocal tz now +
      ((if weekdayOf (dateKeyLocal tz now) = 0 then (-6 : ℤ) else 1) -
        weekdayOf (dateKeyLocal tz now)))

/-- The closed `Category` union type of the TypeScript source. -/
inductive Category where
  | study
  | skill
  | exercise
deriving DecidableEq

/-- The denormalized owner identity joined onto each activity row
(`profiles(username, display_name)` in the select). -/
structure ProfileRef where
  username : String
  display_name : String
deriving DecidableEq

/-- `ActivityRow` as typed in both source pages. -/
structure ActivityRow where
  id : String
  user_id : String
  category : Category
  title : Option String
  minutes : Option ℚ
  occurred_at : ℤ
  profiles : Option ProfileRef
deriving DecidableEq

/-- The minutes contribution of a row: `typeof l.minutes === "number" ?
l.minutes : 0`. -/
def minutesOf (l : ActivityRow) : ℚ := l.minutes.getD 0

/-- The `{study, skill, exercise, all}` accumulator of `weeklyTotals`. -/
structure Totals where
  study : ℚ
  skill : ℚ
  exercise : ℚ
  all : ℚ
deriving DecidableEq

/-- `totals[l.category] += m` for a typed category. -/
def addCat (t : Totals) (c : Category) (m : ℚ) : Totals :=
  match c with
  | Category.study => { t with study := t.study + m }
  | Category.skill => { t with skill := t.skill + m }
  | Category.exercise => { t with exercise := t.exercise + m }

/-- One loop iteration of `weeklyTotals`: skip the row if it is strictly
before the week start, otherwise add its minutes to the matching category
and to `all`. -/
def weeklyTotalsStep (weekStart : ℤ) (t : Totals) (l : ActivityRow) : Totals :=
  if l.occurred_at < weekStart then t
  else
    { addCat t l.category (minutesOf l) with
      all := (addCat t l.category (minutesOf l)).all + minutesOf l }

/-- Model of the profile page's `weeklyTotals` memo. -/
def weeklyTotals (logs : List ActivityRow) (weekStart : ℤ) : Totals :=
  logs.foldl (weeklyTotalsStep weekStart) ⟨0, 0, 0, 0⟩

/-- Model of the activity page's `weeklyLogs` memo: keep rows whose
`occurred_at` instant is at or after the week start. -/
def weeklyLogs (logs : List ActivityRow) (weekStart : ℤ) : List ActivityRow :=
  logs.filter (fun l => weekStart ≤ l.occurred_at)

/-- The set of distinct active day keys of a record list (`days` in the
profile page's `streak` memo, built by iterated `Set.add`). -/
def daySetOf (tz : ℤ) (logs : List ActivityRow) : Finset ℤ :=
  logs.foldl (fun s l => insert (dateKeyLocal tz l.occurred_at) s) ∅

/-- The `while (days.has(dateKeyLocal(cursor)))` counting loop shared by
`streak` and `streakByUser`: starting at day `c`, count how many
consecutive days (walking backward) are in `days`. -/
def countRun (days : Finset ℤ) (c : ℤ) : ℕ :=
  if h : c ∈ days then countRun days (c - 1) + 1 else 0
termination_by (days.filter (fun x => x ≤ c)).card
decreasing_by
  apply Finset.card_lt_card
  rw [Finset.ssubset_def]
  constructor
  · intro x hx
    rw [Finset.mem_filter] at hx ⊢
    exact ⟨hx.1, by omega⟩
  · intro hsub
    have hc : c ∈ days.filter (fun x => x ≤ c) := by
      rw [Finset.mem_filter]; exact ⟨h, le_refl c⟩
    have hc2 := hsub hc
    rw [Finset.mem_filter] at hc2
    omega

/-- Model of the profile page's `streak` memo: collect the distinct local
day keys of all supplied rows, put the cursor at today's local midnight,
apply the forgiving rule (step back one day if today has no log), then
count the backward run. -/
def streak (tz : ℤ) (logs : List ActivityRow) (now : ℤ) : ℕ :=
  countRun (daySetOf tz logs)
    (if dateKeyLocal tz now ∈ daySetOf tz logs then dateKeyLocal tz now
     else dateKeyLocal tz now - 1)

/-- One per-user summary of the activity page's `totalsByUser` memo. -/
structure UserSummary where
  user_id : String
  display_name : String
  username : String
  study : ℚ
  skill : ℚ
  exercise : ℚ
  all : ℚ
deriving DecidableEq

/-- The zeroed summary seeded on first sight of an owner, carrying the
display identity of the record encountered (`?? "Unknown"` / `?? "unknown"`
when the joined profile is missing). -/
def seedSummary (l : ActivityRow) : UserSummary :=
  { user_id := l.user_id
    display_name := (l.profiles.map ProfileRef.display_name).getD "Unknown"
    username := (l.profiles.map ProfileRef.username).getD "unknown"
    study := 0
    skill := 0
    exercise := 0
    all := 0 }

/-- `map[uid][l.category] += m; map[uid].all += m` for one record. -/
def bump (s : UserSummary) (l : ActivityRow) : UserSummary :=
  match l.category with
  | Category.study =>
      { s with study := s.study + minutesOf l, all := s.all + minutesOf l }
  | Category.skill =>
      { s with skill := s.skill + minutesOf l, all := s.all + minutesOf l }
  | Category.exercise =>
      { s with exercise := s.exercise + minutesOf l, all := s.all + minutesOf l }

/-- One loop iteration of `totalsByUser`: create the zeroed summary if the
owner is unseen (appended, so `Object.values` order is insertion order of
first appearance), then accumulate the record into that owner's entry. -/
def upsertLog (acc : List UserSummary) (l : ActivityRow) : List UserSummary :=
  (if acc.any (fun s => s.user_id == l.user_id) then acc
   else acc ++ [seedSummary l]).map
    (fun s => if s.user_id == l.user_id then bump s l else s)

/-- Model of the activity page's `totalsByUser` memo (the JS object keyed by
`user_id` with `Object.values` insertion order is an association list). -/
def totalsByUser (logs : List ActivityRow) : List UserSummary :=
  logs.foldl upsertLog []

/-- Model of the activity page's `maxBar` memo:
`max = 1; for u: max = Math.max(max, u.study, u.skill, u.exercise)`. -/
def maxBar (users : List UserSummary) : ℚ :=
  users.foldl (fun mx u => max (max (max mx u.study) u.skill) u.exercise) 1

/-- The largest single per-category value across all users, with no floor
(spec-side quantity used to state what `maxBar` computes). -/
def trueMax (users : List UserSummary) : ℚ :=
  users.foldl (fun mx u => max (max (max mx u.study) u.skill) u.exercise) 0

/-- Model of the chart bar width `pct = Math.round((v / maxBar) * 100)`
(`Math.round` is round-half-up, as is Mathlib's `round` on `ℚ`). -/
def pct (v mx : ℚ) : ℤ := round (v / mx * 100)

/-- One iteration of the `activeDays` grouping loop of `streakByUser`:
insert the record's day key into its owner's set (empty set on first
sight). -/
def activeDaysStep (tz : ℤ) (m : String → Finset ℤ) (l : ActivityRow) :
    String → Finset ℤ :=
  fun uid =>
    if uid = l.user_id then insert (dateKeyLocal tz l.occurred_at) (m uid)
    else m uid

/-- The `activeDays` record of `streakByUser`, as a total map from owner id
to day-key set (absent owners map to the empty set). -/
def activeDaysMap (tz : ℤ) (logs : List ActivityRow) : String → Finset ℤ :=
  logs.foldl (activeDaysStep tz) (fun _ => ∅)

/-- Model of the activity page's `streakByUser` memo as a lookup: owners
appearing in the (full, unwindowed) log list map to the forgiving backward
run over their own day-key set; other ids are absent from the result
object. -/
def streakByUser (tz : ℤ) (logs : List ActivityRow) (now : ℤ) :
    String → Option ℕ :=
  fun uid =>
    if logs.any (fun l => l.user_id == uid) then
      some (countRun (activeDaysMap tz logs uid)
        (if dateKeyLocal tz now ∈ activeDaysMap tz logs uid then
          dateKeyLocal tz now
         else dateKeyLocal tz now - 1))
    else none

/-- The sub-list of a record list belonging to one owner. -/
def ownLogs (logs : List ActivityRow) (uid : String) : List ActivityRow :=
  logs.filter (fun l => l.user_id == uid)

/-- An activity row as the JS runtime sees it: `category` is whatever string
the database row carries, with no runtime validation (the TypeScript
`Category` union is erased at runtime). -/
structure RawRow where
  user_id : String
  category : String
  minutes : Option ℚ
  occurred_at : ℤ
  profiles : Option ProfileRef
deriving DecidableEq

/-- JS runtime semantics of the `weeklyTotals` loop body for a raw row:
for a recognized category, `totals[l.category] += m` updates that field;
for any other string it creates a stray `NaN` property on the totals object
and leaves the three declared category fields untouched, while
`totals.all += m` still runs.  Only the four declared fields are observable
downstream. -/
def weeklyTotalsRunStep (weekStart : ℤ) (t : Totals) (l : RawRow) : Totals :=
  if l.occurred_at < weekStart then t
  else
    match l.category with
    | "study" =>
        { t with study := t.study + l.minutes.getD 0, all := t.all + l.minutes.getD 0 }
    | "skill" =>
        { t with skill := t.skill + l.minutes.getD 0, all := t.all + l.minutes.getD 0 }
    | "exercise" =>
        { t with exercise := t.exercise + l.minutes.getD 0, all := t.all + l.minutes.getD 0 }
    | _ => { t with all := t.all + l.minutes.getD 0 }

/-- The `weeklyTotals` aggregation over raw (runtime-typed) rows. -/
def weeklyTotalsRun (logs : List RawRow) (weekStart : ℤ) : Totals :=
  logs.foldl (weeklyTotalsRunStep weekStart) ⟨0, 0, 0, 0⟩

/-- The zeroed per-user summary seeded by `totalsByUser`, raw-row variant. -/
def seedSummaryRun (l : RawRow) : UserSummary :=
  { user_id := l.user_id
    display_name := (l.profiles.map ProfileRef.display_name).getD "Unknown"
    username := (l.profiles.map ProfileRef.username).getD "unknown"
    study := 0
    skill := 0
    exercise := 0
    all := 0 }

/-- JS runtime semantics of `map[uid][l.category] += m; map[uid].all += m`
for a raw row: an out-of-enumeration category string updates none of the
three declared category fields (it creates a stray `NaN` property) while
`all` still accumulates the minutes. -/
def bumpRun (s : UserSummary) (l : RawRow) : UserSummary :=
  match l.category with
  | "study" =>
      { s with study := s.study + l.minutes.getD 0, all := s.all + l.minutes.getD 0 }
  | "skill" =>
      { s with skill := s.skill + l.minutes.getD 0, all := s.all + l.minutes.getD 0 }
  | "exercise" =>
      { s with exercise := s.exercise + l.minutes.getD 0, all := s.all + l.minutes.getD 0 }
  | _ => { s with all := s.all + l.minutes.getD 0 }

/-- One `totalsByUser` loop iteration over raw rows. -/
def upsertLogRun (acc : List UserSummary) (l : RawRow) : List UserSummary :=
  (if acc.any (fun s => s.user_id == l.user_id) then acc
   else acc ++ [seedSummaryRun l]).map
    (fun s => if s.user_id == l.user_id then bumpRun s l else s)

/-- The `totalsByUser` aggregation over raw (runtime-typed) rows. -/
def totalsByUserRun (logs : List RawRow) : List UserSummary :=
  logs.foldl upsertLogRun []

/-- The largest of a summary's three category values (spec-side shorthand
for stating what the `maxBar` fold accumulates). -/
def uMax (u : UserSummary) : ℚ := max (max u.study u.skill) u.exercise

/-- Round a rational to the nearest integer, ties to the even integer
(the rounding of IEEE-754 round-to-nearest-even at significand
granularity). -/
def rndNE (n : ℚ) : ℤ :=
  if n - ⌊n⌋ < 1 / 2 then ⌊n⌋
  else if 1 / 2 < n - ⌊n⌋ then ⌊n⌋ + 1
  else if 2 ∣ ⌊n⌋ then ⌊n⌋ else ⌊n⌋ + 1

/-- Binade exponent of a positive rational: the `e` with `2^e ≤ q <
2^(e+1)`, computed from `Nat.log` on the integer part of `q` or of
`1/q`. -/
def expOf (q : ℚ) : ℤ :=
  if 1 ≤ q then (Nat.log 2 ⌊q⌋.toNat : ℤ)
  else -((Nat.log 2 ((⌈1 / q⌉).toNat - 1) : ℤ) + 1)

/-- Round a rational to the nearest IEEE-754 binary64 value (round to
nearest, ties to even): snap `q` to the grid of spacing `2^(e-52)` of its
binade.  The model covers the normal finite range, which contains every
minutes value and weekly sum this application can store; overflow and
subnormals are out of range here and not modelled. -/
def roundDouble (q : ℚ) : ℚ :=
  if q = 0 then 0
  else if q < 0 then
    -((rndNE (-q / 2 ^ (expOf (-q) - 52)) : ℚ) * 2 ^ (expOf (-q) - 52))
  else (rndNE (q / 2 ^ (expOf q - 52)) : ℚ) * 2 ^ (expOf q - 52)

/-- JS `+=` on numbers: binary64 addition, i.e. exact addition followed by
rounding to the nearest double. -/
def addDouble (a b : ℚ) : ℚ := roundDouble (a + b)

/-- `totals[l.category] += m` under binary64 arithmetic. -/
def addCatDbl (t : Totals) (c : Category) (m : ℚ) : Totals :=
  match c with
  | Category.study => { t with study := addDouble t.study m }
  | Category.skill => { t with skill := addDouble t.skill m }
  | Category.exercise => { t with exercise := addDouble t.exercise m }

/-- One loop iteration of `weeklyTotals` under binary64 arithmetic: the
runtime semantics of the source's `+=` accumulation. -/
def weeklyTotalsStepDbl (weekStart : ℤ) (t : Totals) (l : ActivityRow) : Totals :=
  if l.occurred_at < weekStart then t
  else
    { addCatDbl t l.category (minutesOf l) with
      all := addDouble (addCatDbl t l.category (minutesOf l)).all (minutesOf l) }

/-- The profile page's `weeklyTotals` under binary64 arithmetic. -/
def weeklyTotalsDbl (logs : List ActivityRow) (weekStart : ℤ) : Totals :=
  logs.foldl (weeklyTotalsStepDbl weekStart) ⟨0, 0, 0, 0⟩

/-- `map[uid][l.category] += m; map[uid].all += m` under binary64
arithmetic. -/
def bumpDbl (s : UserSummary) (l : ActivityRow) : UserSummary :=
  match l.category with
  | Category.study =>
      { s with study := addDouble s.study (minutesOf l),
               all := addDouble s.all (minutesOf l) }
  | Category.skill =>
      { s with skill := addDouble s.skill (minutesOf l),
               all := addDouble s.all (minutesOf l) }
  | Category.exercise =>
      { s with exercise := addDouble s.exercise (minutesOf l),
               all := addDouble s.all (minutesOf l) }

/-- One `totalsByUser` loop iteration under binary64 arithmetic. -/
def upsertLogDbl (acc : List UserSummary) (l : ActivityRow) : List UserSummary :=
  (if acc.any (fun s => s.user_id == l.user_id) then acc
   else acc ++ [seedSummary l]).map
    (fun s => if s.user_id == l.user_id then bumpDbl s l else s)

/-- The activity page's `totalsByUser` under binary64 arithmetic. -/
def totalsByUserDbl (logs : List ActivityRow) : List UserSummary :=
  logs.foldl upsertLogDbl []

/-- A totals record whose four fields are natural numbers with
`all = study + skill + exercise`. -/
def NatTotals (t : Totals) : Prop :=
  ∃ a b c : ℕ, t = ⟨(a : ℚ), (b : ℚ), (c : ℚ), ((a + b + c : ℕ) : ℚ)⟩

/-- A summary whose numeric fields are natural numbers with
`all = study + skill + exercise`. -/
def NatSummary (s : UserSummary) : Prop :=
  ∃ a b c : ℕ, s.study = (a : ℚ) ∧ s.skill = (b : ℚ) ∧ s.exercise = (c : ℚ) ∧
    s.all = ((a + b + c : ℕ) : ℚ)

/-- Rows with the binary64 values a JS client stores for user-entered
minutes `0.2` (skill), `0.3` (exercise) and `0.1` (study), in delivered
(descending `occurred_at`) order: `Number("0.2")` is exactly
`3602879701896397 / 2^54`, `Number("0.3")` is `5404319552844595 / 2^54`
and `Number("0.1")` is `3602879701896397 / 2^55`. -/
def floatCexRows : List ActivityRow :=
  [⟨"f1", "u1", Category.skill, none,
      some (3602879701896397 / 18014398509481984), 30, none⟩,
   ⟨"f2", "u1", Category.exercise, none,
      some (5404319552844595 / 18014398509481984), 20, none⟩,
   ⟨"f3", "u1", Category.study, none,
      some (3602879701896397 / 36028797018963968), 10, none⟩]

/-- Auxiliary fact for the termination of the streak counting loop. -/
theorem filter_le_card_lt (days : Finset ℤ) (c : ℤ) (h : c ∈ days) :
    (days.filter (fun x => x ≤ c - 1)).card < (days.filter (fun x => x ≤ c)).card := by
  apply Finset.card_lt_card
  rw [Finset.ssubset_def]
  constructor
  · intro x hx
    rw [Finset.mem_filter] at hx ⊢
    exact ⟨hx.1, by omega⟩
  · intro hsub
    have hc : c ∈ days.filter (fun x => x ≤ c) := by
      rw [Finset.mem_filter]; exact ⟨h, le_refl c⟩
    have hc2 := hsub hc
    rw [Finset.mem_filter] at hc2
    omega

/-- Unfolding equation of `countRun` in non-dependent form. -/
theorem countRun_spec (days : Finset ℤ) (c : ℤ) :
    countRun days c = if c ∈ days then countRun days (c - 1) + 1 else 0 := by
  rw [countRun]
  split <;> simp_all

/-- Local midnight of day `d` lies on local day `d`. -/
theorem dateKeyLocal_localMidnight (tz d : ℤ) :
    dateKeyLocal tz (localMidnight tz d) = d := by
  unfold dateKeyLocal localMidnight msPerDay
  omega

/-- C5: for every instant `now` (and every fixed-offset local timezone),
`startOfWeekMondayLocal now` is the local midnight of the Monday on or
before `now`: its local day has weekday Monday, it is a local midnight, it
is at or before `now` and at most 6 days back; when `now` falls on a
Wednesday it is the Monday 2 days earlier in the same week, and when `now`
falls on a Sunday it is the Monday 6 days prior. -/
theorem startOfWeekMondayLocal_correct (tz now : ℤ) :
    weekdayOf (dateKeyLocal tz (startOfWeekMondayLocal tz now)) = 1 ∧
    startOfWeekMondayLocal tz now =
      localMidnight tz (dateKeyLocal tz (startOfWeekMondayLocal tz now)) ∧
    startOfWeekMondayLocal tz now ≤ now ∧
    dateKeyLocal tz (startOfWeekMondayLocal tz now) ≤ dateKeyLocal tz now ∧
    dateKeyLocal tz now - dateKeyLocal tz (startOfWeekMondayLocal tz now) ≤ 6 ∧
    (weekdayOf (dateKeyLocal tz now) = 3 →
      dateKeyLocal tz now - dateKeyLocal tz (startOfWeekMondayLocal tz now) = 2) ∧
    (weekdayOf (dateKeyLocal tz now) = 0 →
      dateKeyLocal tz now - dateKeyLocal tz (startOfWeekMondayLocal tz now) = 6) := by
  have hkey : dateKeyLocal tz (startOfWeekMondayLocal tz now) =
      dateKeyLocal tz now +
        ((if weekdayOf (dateKeyLocal tz now) = 0 then (-6 : ℤ) else 1) -
          weekdayOf (dateKeyLocal tz now)) := by
    unfold startOfWeekMondayLocal
    rw [dateKeyLocal_localMidnight]
  rw [hkey]
  unfold startOfWeekMondayLocal dateKeyLocal weekdayOf localMidnight msPerDay
  split_ifs <;> omega

/-- Witness for C5 at concrete instants: 1970-01-07 (a Wednesday) maps to
the Monday 2 days earlier and 1970-01-04 (a Sunday) to the Monday 6 days
earlier. -/
theorem startOfWeekMondayLocal_correct_witness :
    dateKeyLocal 0 518400123 - dateKeyLocal 0 (startOfWeekMondayLocal 0 518400123) = 2 ∧
    dateKeyLocal 0 259200456 - dateKeyLocal 0 (startOfWeekMondayLocal 0 259200456) = 6 :=
  ⟨(startOfWeekMondayLocal_correct 0 518400123).2.2.2.2.2.1 (by decide),
   (startOfWeekMondayLocal_correct 0 259200456).2.2.2.2.2.2 (by decide)⟩

/-- `totals[l.category] += m` never touches the `all` field. -/
theorem addCat_all (t : Totals) (c : Category) (m : ℚ) :
    (addCat t c m).all = t.all := by
  cases c <;> rfl

/-- Folding the weekly-totals step over a list equals folding it over the
sub-list of rows at or after the week start (rows strictly before are
skipped by the loop). -/
theorem foldl_weeklyTotalsStep_filter (ws : ℤ) :
    ∀ (logs : List ActivityRow) (acc : Totals),
      logs.foldl (weeklyTotalsStep ws) acc =
        (logs.filter (fun l => ws ≤ l.occurred_at)).foldl (weeklyTotalsStep ws) acc := by
  intro logs
  induction logs with
  | nil => intro acc; rfl
  | cons l rest ih =>
    intro acc
    by_cases h : ws ≤ l.occurred_at
    · simp only [List.foldl_cons, List.filter_cons, decide_eq_true h, ite_true]
      exact ih _
    · have hskip : weeklyTotalsStep ws acc l = acc := by
        unfold weeklyTotalsStep
        rw [if_pos (by omega)]
      simp only [List.foldl_cons, List.filter_cons, hskip]
      rw [decide_eq_false (by omega)]
      simp only [Bool.false_eq_true, ite_false]
      exact ih _

/-- C6: a record enters the weekly aggregation exactly when its
`occurred_at` instant is at or after `weekStart`: the totals only depend on
the sub-list of rows with `weekStart ≤ occurred_at` (so there is no upper
bound and future-dated rows count), membership in the weekly window is that
very comparison on instants, a row strictly before the week start
contributes nothing, and a row at or after it (including exactly at
`weekStart`) contributes its minutes. -/
theorem weekly_window_inclusive (ws : ℤ) (logs : List ActivityRow) (l : ActivityRow) :
    (weeklyTotals logs ws = weeklyTotals (weeklyLogs logs ws) ws) ∧
    (∀ r : ActivityRow, r ∈ weeklyLogs logs ws ↔ (r ∈ logs ∧ ws ≤ r.occurred_at)) ∧
    (l.occurred_at < ws → weeklyTotals (l :: logs) ws = weeklyTotals logs ws) ∧
    (ws ≤ l.occurred_at → (weeklyTotals [l] ws).all = minutesOf l) := by
  refine ⟨?_, ?_, ?_, ?_⟩
  · unfold weeklyTotals weeklyLogs
    exact foldl_weeklyTotalsStep_filter ws logs _
  · intro r
    unfold weeklyLogs
    simp [List.mem_filter]
  · intro h
    unfold weeklyTotals
    simp only [List.foldl_cons]
    have hskip : weeklyTotalsStep ws ⟨0, 0, 0, 0⟩ l = ⟨0, 0, 0, 0⟩ := by
      unfold weeklyTotalsStep
      rw [if_pos h]
    rw [hskip]
  · intro h
    unfold weeklyTotals
    simp only [List.foldl_cons, List.foldl_nil]
    unfold weeklyTotalsStep
    rw [if_neg (by omega)]
    simp [addCat_all]

/-- Witness for C6 at a concrete input: a row exactly at the week start is
included (its minutes reach `all`), and a row strictly before it is
ignored. -/
theorem weekly_window_inclusive_witness :
    (weeklyTotals [⟨"i1", "u1", Category.study, none, some 30, 1000, none⟩] 1000).all =
      minutesOf ⟨"i1", "u1", Category.study, none, some 30, 1000, none⟩ ∧
    weeklyTotals [⟨"i2", "u2", Category.skill, none, some 7, 999, none⟩] 1000 =
      weeklyTotals [] 1000 :=
  ⟨(weekly_window_inclusive 1000 []
      ⟨"i1", "u1", Category.study, none, some 30, 1000, none⟩).2.2.2 (by norm_num),
   (weekly_window_inclusive 1000 []
      ⟨"i2", "u2", Category.skill, none, some 7, 999, none⟩).2.2.1 (by norm_num)⟩

/-- The running weekly totals preserve `all = study + skill + exercise`. -/
theorem foldl_weeklyTotalsStep_sum (ws : ℤ) :
    ∀ (logs : List ActivityRow) (acc : Totals),
      acc.all = acc.study + acc.skill + acc.exercise →
      (logs.foldl (weeklyTotalsStep ws) acc).all =
        (logs.foldl (weeklyTotalsStep ws) acc).study +
          (logs.foldl (weeklyTotalsStep ws) acc).skill +
          (logs.foldl (weeklyTotalsStep ws) acc).exercise := by
  intro logs
  induction logs with
  | nil => intro acc h; exact h
  | cons l rest ih =>
    intro acc h
    simp only [List.foldl_cons]
    apply ih
    unfold weeklyTotalsStep
    by_cases hw : l.occurred_at < ws
    · rw [if_pos hw]; exact h
    · rw [if_neg hw]
      cases hc : l.category <;> simp [addCat, hc, h] <;> ring

/-- Every summary produced by the `totalsByUser` fold satisfies a predicate
that holds for seeded summaries, is preserved by `bump`, and holds on the
accumulator. -/
theorem totalsByUser_pred (P : UserSummary → Prop) :
    ∀ (logs : List ActivityRow) (acc : List UserSummary),
      (∀ l ∈ logs, P (seedSummary l)) →
      (∀ (s : UserSummary), ∀ l ∈ logs, P s → P (bump s l)) →
      (∀ s ∈ acc, P s) →
      ∀ s ∈ logs.foldl upsertLog acc, P s := by
  intro logs
  induction logs with
  | nil => intro acc _ _ hacc; exact hacc
  | cons l rest ih =>
    intro acc hseed hbump hacc
    simp only [List.foldl_cons]
    apply ih
    · intro x hx; exact hseed x (List.mem_cons_of_mem l hx)
    · intro s x hx hs; exact hbump s x (List.mem_cons_of_mem l hx) hs
    · intro s hs
      unfold upsertLog at hs
      rcases List.mem_map.mp hs with ⟨s0, hs0, rfl⟩
      have hP0 : P s0 := by
        by_cases hany : acc.any (fun s => s.user_id == l.user_id)
        · rw [if_pos hany] at hs0; exact hacc s0 hs0
        · rw [if_neg hany] at hs0
          rcases List.mem_append.mp hs0 with h1 | h1
          · exact hacc s0 h1
          · rw [List.mem_singleton] at h1
            rw [h1]
            exact hseed l (List.mem_cons_self l rest)
      by_cases hu : s0.user_id == l.user_id
      · rw [if_pos hu]
        exact hbump s0 l (List.mem_cons_self l rest) hP0
      · rw [if_neg hu]; exact hP0

/-- Rounding to the nearest integer is the identity on integers. -/
theorem rndNE_intCast (N : ℤ) : rndNE ((N : ℚ)) = N := by
  unfold rndNE
  rw [Int.floor_intCast]
  norm_num

/-- Evaluation scheme for `roundDouble` at a positive rational with known
binade exponent and known rounded significand. -/
theorem roundDouble_eval_pos (q : ℚ) (e N : ℤ) (h0 : 0 < q)
    (he : expOf q = e) (hN : rndNE (q * 2 ^ (52 - e)) = N) :
    roundDouble q = (N : ℚ) * 2 ^ (e - 52) := by
  unfold roundDouble
  rw [if_neg (ne_of_gt h0), if_neg (not_lt.mpr (le_of_lt h0)), he]
  have hdiv : q / 2 ^ (e - 52) = q * 2 ^ (52 - e) := by
    rw [div_eq_mul_inv, ← zpow_neg]
    have hexp : -(e - 52) = 52 - e := by ring
    rw [hexp]
  rw [hdiv, hN]

/-- The double `Number("0.1") = 3602879701896397/2^55` is exactly
representable: rounding fixes it. -/
theorem roundDouble_tenth :
    roundDouble (3602879701896397 / 36028797018963968 : ℚ) =
      3602879701896397 / 36028797018963968 := by
  have he : expOf (3602879701896397 / 36028797018963968 : ℚ) = -4 := by
    unfold expOf
    rw [if_neg (by norm_num)]
    have hc : ⌈1 / (3602879701896397 / 36028797018963968 : ℚ)⌉ = 10 := by
      rw [Int.ceil_eq_iff]
      constructor <;> norm_num
    rw [hc, show ((10 : ℤ).toNat - 1) = 9 from rfl,
      show Nat.log 2 9 = 3 from
        Nat.log_eq_of_pow_le_of_lt_pow (by norm_num) (by norm_num)]
    norm_num
  rw [roundDouble_eval_pos _ (-4) 7205759403792794 (by norm_num) he
    (by
      rw [show (3602879701896397 / 36028797018963968 : ℚ) * 2 ^ ((52 : ℤ) - -4) =
        ((7205759403792794 : ℤ) : ℚ) by push_cast; norm_num]
      exact rndNE_intCast _)]
  norm_num

/-- The double `Number("0.2") = 3602879701896397/2^54` is exactly
representable. -/
theorem roundDouble_fifth :
    roundDouble (3602879701896397 / 18014398509481984 : ℚ) =
      3602879701896397 / 18014398509481984 := by
  have he : expOf (3602879701896397 / 18014398509481984 : ℚ) = -3 := by
    unfold expOf
    rw [if_neg (by norm_num)]
    have hc : ⌈1 / (3602879701896397 / 18014398509481984 : ℚ)⌉ = 5 := by
      rw [Int.ceil_eq_iff]
      constructor <;> norm_num
    rw [hc, show ((5 : ℤ).toNat - 1) = 4 from rfl,
      show Nat.log 2 4 = 2 from
        Nat.log_eq_of_pow_le_of_lt_pow (by norm_num) (by norm_num)]
    norm_num
  rw [roundDouble_eval_pos _ (-3) 7205759403792794 (by norm_num) he
    (by
      rw [show (3602879701896397 / 18014398509481984 : ℚ) * 2 ^ ((52 : ℤ) - -3) =
        ((7205759403792794 : ℤ) : ℚ) by push_cast; norm_num]
      exact rndNE_intCast _)]
  norm_num

/-- The double `Number("0.3") = 5404319552844595/2^54` is exactly
representable. -/
theorem roundDouble_threeTenths :
    roundDouble (5404319552844595 / 18014398509481984 : ℚ) =
      5404319552844595 / 18014398509481984 := by
  have he : expOf (5404319552844595 / 18014398509481984 : ℚ) = -2 := by
    unfold expOf
    rw [if_neg (by norm_num)]
    have hc : ⌈1 / (5404319552844595 / 18014398509481984 : ℚ)⌉ = 4 := by
      rw [Int.ceil_eq_iff]
      constructor <;> norm_num
    rw [hc, show ((4 : ℤ).toNat - 1) = 3 from rfl,
      show Nat.log 2 3 = 1 from
        Nat.log_eq_of_pow_le_of_lt_pow (by norm_num) (by norm_num)]
    norm_num
  rw [roundDouble_eval_pos _ (-2) 5404319552844595 (by norm_num) he
    (by
      rw [show (5404319552844595 / 18014398509481984 : ℚ) * 2 ^ ((52 : ℤ) - -2) =
        ((5404319552844595 : ℤ) : ℚ) by push_cast; norm_num]
      exact rndNE_intCast _)]
  norm_num

/-- One half is exactly representable. -/
theorem roundDouble_half : roundDouble (1 / 2 : ℚ) = 1 / 2 := by
  have he : expOf (1 / 2 : ℚ) = -1 := by
    unfold expOf
    rw [if_neg (by norm_num)]
    have hc : ⌈1 / (1 / 2 : ℚ)⌉ = 2 := by
      rw [Int.ceil_eq_iff]
      constructor <;> norm_num
    rw [hc, show ((2 : ℤ).toNat - 1) = 1 from rfl,
      show Nat.log 2 1 = 0 from
        Nat.log_eq_of_pow_le_of_lt_pow (by norm_num) (by norm_num)]
    norm_num
  rw [roundDouble_eval_pos _ (-1) 4503599627370496 (by norm_num) he
    (by
      rw [show (1 / 2 : ℚ) * 2 ^ ((52 : ℤ) - -1) =
        ((4503599627370496 : ℤ) : ℚ) by push_cast; norm_num]
      exact rndNE_intCast _)]
  norm_num

/-- The exact sum `0.5 + Number("0.1") = 21617278211378381/2^55` is NOT
representable: its significand scale position is a quarter, and rounding
brings it down to the double `0.6 = 5404319552844595/2^53`. -/
theorem roundDouble_sixTenths :
    roundDouble (21617278211378381 / 36028797018963968 : ℚ) =
      5404319552844595 / 9007199254740992 := by
  have he : expOf (21617278211378381 / 36028797018963968 : ℚ) = -1 := by
    unfold expOf
    rw [if_neg (by norm_num)]
    have hc : ⌈1 / (21617278211378381 / 36028797018963968 : ℚ)⌉ = 2 := by
      rw [Int.ceil_eq_iff]
      constructor <;> norm_num
    rw [hc, show ((2 : ℤ).toNat - 1) = 1 from rfl,
      show Nat.log 2 1 = 0 from
        Nat.log_eq_of_pow_le_of_lt_pow (by norm_num) (by norm_num)]
    norm_num
  rw [roundDouble_eval_pos _ (-1) 5404319552844595 (by norm_num) he
    (by
      rw [show (21617278211378381 / 36028797018963968 : ℚ) * 2 ^ ((52 : ℤ) - -1) =
        (21617278211378381 / 4 : ℚ) by push_cast; norm_num]
      unfold rndNE
      rw [show ⌊(21617278211378381 / 4 : ℚ)⌋ = 5404319552844595 by
        rw [Int.floor_eq_iff]; norm_num]
      norm_num)]
  norm_num

/-- Counterexample to C1 as stated: under the program's binary64 `+=`
semantics, the in-order rows skill `0.2`, exercise `0.3`, study `0.1`
give `all` = the double `0.6` (`5404319552844595/2^53`), while the stored
`study + skill + exercise` sum to `21617278211378381/2^55`, one ulp above
`all` — the equality `all = study + skill + exercise` fails exactly at
fractional minutes. -/
theorem weekly_sum_invariant_float_cex :
    weeklyTotalsDbl floatCexRows 0 =
      ⟨3602879701896397 / 36028797018963968, 3602879701896397 / 18014398509481984,
        5404319552844595 / 18014398509481984, 5404319552844595 / 9007199254740992⟩ ∧
    (weeklyTotalsDbl floatCexRows 0).all ≠
      (weeklyTotalsDbl floatCexRows 0).study + (weeklyTotalsDbl floatCexRows 0).skill +
        (weeklyTotalsDbl floatCexRows 0).exercise := by
  have e1 : addDouble 0 (3602879701896397 / 18014398509481984 : ℚ) =
      3602879701896397 / 18014398509481984 := by
    unfold addDouble
    rw [zero_add, roundDouble_fifth]
  have e2 : addDouble 0 (5404319552844595 / 18014398509481984 : ℚ) =
      5404319552844595 / 18014398509481984 := by
    unfold addDouble
    rw [zero_add, roundDouble_threeTenths]
  have e3 : addDouble 0 (3602879701896397 / 36028797018963968 : ℚ) =
      3602879701896397 / 36028797018963968 := by
    unfold addDouble
    rw [zero_add, roundDouble_tenth]
  have e4 : addDouble (3602879701896397 / 18014398509481984 : ℚ)
      (5404319552844595 / 18014398509481984 : ℚ) = 1 / 2 := by
    unfold addDouble
    rw [show (3602879701896397 / 18014398509481984 : ℚ) +
        5404319552844595 / 18014398509481984 = 1 / 2 by norm_num, roundDouble_half]
  have e5 : addDouble (1 / 2 : ℚ) (3602879701896397 / 36028797018963968 : ℚ) =
      5404319552844595 / 9007199254740992 := by
    unfold addDouble
    rw [show (1 / 2 : ℚ) + 3602879701896397 / 36028797018963968 =
        21617278211378381 / 36028797018963968 by norm_num, roundDouble_sixTenths]
  have h1 : weeklyTotalsDbl floatCexRows 0 =
      ⟨3602879701896397 / 36028797018963968, 3602879701896397 / 18014398509481984,
        5404319552844595 / 18014398509481984, 5404319552844595 / 9007199254740992⟩ := by
    unfold weeklyTotalsDbl floatCexRows
    simp only [List.foldl_cons, List.foldl_nil, weeklyTotalsStepDbl, addCatDbl,
      minutesOf, Option.getD_some]
    norm_num [e1, e2, e3, e4, e5]
  refine ⟨h1, ?_⟩
  rw [h1]
  norm_num

/-- Rounding to the nearest double is the identity on natural numbers
below `2^53` (they are exactly representable). -/
theorem roundDouble_natCast (n : ℕ) (h : (n : ℚ) < 2 ^ 53) :
    roundDouble (n : ℚ) = n := by
  by_cases h0 : n = 0
  · subst h0
    norm_num [roundDouble]
  · have hq1 : (1 : ℚ) ≤ n := by exact_mod_cast Nat.one_le_iff_ne_zero.mpr h0
    have hq0 : (0 : ℚ) < n := by linarith
    have he : expOf (n : ℚ) = (Nat.log 2 n : ℤ) := by
      unfold expOf
      rw [if_pos hq1, Int.floor_natCast, Int.toNat_natCast]
    have hle : Nat.log 2 n ≤ 52 := by
      have hlt : Nat.log 2 n < 53 := Nat.log_lt_of_lt_pow h0 (by exact_mod_cast h)
      omega
    have hsub : (52 : ℤ) - (Nat.log 2 n : ℤ) = ((52 - Nat.log 2 n : ℕ) : ℤ) := by
      omega
    have hscale : (n : ℚ) * 2 ^ ((52 : ℤ) - (Nat.log 2 n : ℤ)) =
        (((n * 2 ^ (52 - Nat.log 2 n) : ℕ) : ℤ) : ℚ) := by
      rw [hsub, zpow_natCast]
      push_cast
      ring
    rw [roundDouble_eval_pos _ (Nat.log 2 n : ℤ)
      ((n * 2 ^ (52 - Nat.log 2 n) : ℕ) : ℤ) hq0 he
      (by rw [hscale]; exact rndNE_intCast _)]
    rw [show ((Nat.log 2 n : ℤ) - 52) = -(((52 - Nat.log 2 n : ℕ)) : ℤ) by omega,
      zpow_neg, zpow_natCast]
    push_cast
    rw [mul_assoc, mul_inv_cancel₀ (by positivity), mul_one]

/-- Binary64 `+=` is exact on natural numbers whose sum stays below
`2^53`. -/
theorem addDouble_natCast (a b : ℕ) (h : ((a + b : ℕ) : ℚ) < 2 ^ 53) :
    addDouble (a : ℚ) (b : ℚ) = ((a + b : ℕ) : ℚ) := by
  unfold addDouble
  rw [show ((a : ℚ) + b) = ((a + b : ℕ) : ℚ) by push_cast; ring]
  exact roundDouble_natCast _ h

/-- Rows with natural-number minutes have non-negative minutes. -/
theorem minutes_nonneg_of_nat {logs : List ActivityRow}
    (h : ∀ l ∈ logs, ∃ k : ℕ, minutesOf l = (k : ℚ)) :
    ∀ l ∈ logs, 0 ≤ minutesOf l := by
  intro l hl
  rcases h l hl with ⟨k, hk⟩
  rw [hk]
  positivity

/-- The total minutes of rows with non-negative minutes is non-negative. -/
theorem minutesSum_nonneg {logs : List ActivityRow}
    (h : ∀ l ∈ logs, 0 ≤ minutesOf l) : 0 ≤ (logs.map minutesOf).sum := by
  apply List.sum_nonneg
  intro x hx
  rcases List.mem_map.mp hx with ⟨l, hl, rfl⟩
  exact h l hl

/-- Filtering can only lower the total minutes (given non-negative
minutes). -/
theorem filter_minutes_sum_le (p : ActivityRow → Bool) :
    ∀ logs : List ActivityRow, (∀ l ∈ logs, 0 ≤ minutesOf l) →
      ((logs.filter p).map minutesOf).sum ≤ (logs.map minutesOf).sum := by
  intro logs
  induction logs with
  | nil => intro h; simp
  | cons l rest ih =>
    intro h
    have h0 := h l (List.mem_cons_self l rest)
    have hr := ih (fun x hx => h x (List.mem_cons_of_mem l hx))
    rw [List.filter_cons]
    by_cases hp : p l
    · simp only [hp, if_true, List.map_cons, List.sum_cons]
      linarith
    · simp only [hp, Bool.false_eq_true, if_false, List.map_cons, List.sum_cons]
      linarith

/-- In-window rows with natural minutes below the `2^53` budget make the
binary64 weekly fold agree with the exact fold. -/
theorem weeklyFoldDbl_eq_exact (ws : ℤ) :
    ∀ (logs : List ActivityRow) (t : Totals),
      (∀ l ∈ logs, ∃ k : ℕ, minutesOf l = (k : ℚ)) →
      NatTotals t →
      t.all + (logs.map minutesOf).sum < 2 ^ 53 →
      logs.foldl (weeklyTotalsStepDbl ws) t = logs.foldl (weeklyTotalsStep ws) t := by
  intro logs
  induction logs with
  | nil => intro t _ _ _; rfl
  | cons l rest ih =>
    intro t hnat hT hbound
    rcases hT with ⟨a, b, c, rfl⟩
    rcases hnat l (List.mem_cons_self l rest) with ⟨k, hk⟩
    have hnatr : ∀ x ∈ rest, ∃ m : ℕ, minutesOf x = (m : ℚ) :=
      fun x hx => hnat x (List.mem_cons_of_mem l hx)
    have hS0 : 0 ≤ (rest.map minutesOf).sum :=
      minutesSum_nonneg (minutes_nonneg_of_nat hnatr)
    have hsum : ((l :: rest).map minutesOf).sum =
        (k : ℚ) + (rest.map minutesOf).sum := by
      rw [List.map_cons, List.sum_cons, hk]
    rw [hsum] at hbound
    have hballq : ((a + b + c : ℕ) : ℚ) + (rest.map minutesOf).sum < 2 ^ 53 := by
      have hk0 : (0 : ℚ) ≤ (k : ℚ) := by positivity
      simp only [Totals.all] at hbound
      linarith
    simp only [List.foldl_cons]
    by_cases hw : l.occurred_at < ws
    · have hD : weeklyTotalsStepDbl ws ⟨(a : ℚ), (b : ℚ), (c : ℚ), ((a + b + c : ℕ) : ℚ)⟩ l =
          ⟨(a : ℚ), (b : ℚ), (c : ℚ), ((a + b + c : ℕ) : ℚ)⟩ := by
        unfold weeklyTotalsStepDbl
        rw [if_pos hw]
      have hE : weeklyTotalsStep ws ⟨(a : ℚ), (b : ℚ), (c : ℚ), ((a + b + c : ℕ) : ℚ)⟩ l =
          ⟨(a : ℚ), (b : ℚ), (c : ℚ), ((a + b + c : ℕ) : ℚ)⟩ := by
        unfold weeklyTotalsStep
        rw [if_pos hw]
      rw [hD, hE]
      exact ih _ hnatr ⟨a, b, c, rfl⟩ hballq
    · have ha0 : (0 : ℚ) ≤ (a : ℚ) := by positivity
      have hb0 : (0 : ℚ) ≤ (b : ℚ) := by positivity
      have hc0 : (0 : ℚ) ≤ (c : ℚ) := by positivity
      have habc : ((a + b + c : ℕ) : ℚ) = (a : ℚ) + b + c := by push_cast; ring
      simp only [Totals.all] at hbound
      have hAa : addDouble (a : ℚ) (k : ℚ) = ((a + k : ℕ) : ℚ) := by
        apply addDouble_natCast
        push_cast
        rw [habc] at hbound
        linarith
      have hAb : addDouble (b : ℚ) (k : ℚ) = ((b + k : ℕ) : ℚ) := by
        apply addDouble_natCast
        push_cast
        rw [habc] at hbound
        linarith
      have hAc : addDouble (c : ℚ) (k : ℚ) = ((c + k : ℕ) : ℚ) := by
        apply addDouble_natCast
        push_cast
        rw [habc] at hbound
        linarith
      have hAll : addDouble ((a + b + c : ℕ) : ℚ) (k : ℚ) = ((a + b + c + k : ℕ) : ℚ) := by
        apply addDouble_natCast
        push_cast
        rw [habc] at hbound
        linarith
      cases hcat : l.category with
      | study =>
        have hD : weeklyTotalsStepDbl ws ⟨(a : ℚ), (b : ℚ), (c : ℚ), ((a + b + c : ℕ) : ℚ)⟩ l =
            ⟨((a + k : ℕ) : ℚ), (b : ℚ), (c : ℚ), (((a + k) + b + c : ℕ) : ℚ)⟩ := by
          simp only [weeklyTotalsStepDbl, addCatDbl, hcat, if_neg hw, hk, hAa, hAll]
          rw [show a + b + c + k = (a + k) + b + c from by omega]
        have hE : weeklyTotalsStep ws ⟨(a : ℚ), (b : ℚ), (c : ℚ), ((a + b + c : ℕ) : ℚ)⟩ l =
            ⟨((a + k : ℕ) : ℚ), (b : ℚ), (c : ℚ), (((a + k) + b + c : ℕ) : ℚ)⟩ := by
          simp only [weeklyTotalsStep, addCat, hcat, if_neg hw, hk, Totals.mk.injEq]
          refine ⟨by push_cast; ring, trivial, trivial, by push_cast; ring⟩
        rw [hD, hE]
        apply ih _ hnatr ⟨a + k, b, c, rfl⟩
        push_cast
        push_cast at hbound
        linarith
      | skill =>
        have hD : weeklyTotalsStepDbl ws ⟨(a : ℚ), (b : ℚ), (c : ℚ), ((a + b + c : ℕ) : ℚ)⟩ l =
            ⟨(a : ℚ), ((b + k : ℕ) : ℚ), (c : ℚ), ((a + (b + k) + c : ℕ) : ℚ)⟩ := by
          simp only [weeklyTotalsStepDbl, addCatDbl, hcat, if_neg hw, hk, hAb, hAll]
          rw [show a + b + c + k = a + (b + k) + c from by omega]
        have hE : weeklyTotalsStep ws ⟨(a : ℚ), (b : ℚ), (c : ℚ), ((a + b + c : ℕ) : ℚ)⟩ l =
            ⟨(a : ℚ), ((b + k : ℕ) : ℚ), (c : ℚ), ((a + (b + k) + c : ℕ) : ℚ)⟩ := by
          simp only [weeklyTotalsStep, addCat, hcat, if_neg hw, hk, Totals.mk.injEq]
          refine ⟨trivial, by push_cast; ring, trivial, by push_cast; ring⟩
        rw [hD, hE]
        apply ih _ hnatr ⟨a, b + k, c, rfl⟩
        push_cast
        push_cast at hbound
        linarith
      | exercise =>
        have hD : weeklyTotalsStepDbl ws ⟨(a : ℚ), (b : ℚ), (c : ℚ), ((a + b + c : ℕ) : ℚ)⟩ l =
            ⟨(a : ℚ), (b : ℚ), ((c + k : ℕ) : ℚ), ((a + b + (c + k) : ℕ) : ℚ)⟩ := by
          simp only [weeklyTotalsStepDbl, addCatDbl, hcat, if_neg hw, hk, hAc, hAll]
          rw [show a + b + c + k = a + b + (c + k) from by omega]
        have hE : weeklyTotalsStep ws ⟨(a : ℚ), (b : ℚ), (c : ℚ), ((a + b + c : ℕ) : ℚ)⟩ l =
            ⟨(a : ℚ), (b : ℚ), ((c + k : ℕ) : ℚ), ((a + b + (c + k) : ℕ) : ℚ)⟩ := by
          simp only [weeklyTotalsStep, addCat, hcat, if_neg hw, hk, Totals.mk.injEq]
          refine ⟨trivial, trivial, by push_cast; ring, by push_cast; ring⟩
        rw [hD, hE]
        apply ih _ hnatr ⟨a, b, c + k, rfl⟩
        push_cast
        push_cast at hbound
        linarith

/-- One binary64 per-user accumulation step agrees with the exact step on
natural-valued summaries within the `2^53` budget, and preserves both the
natural-valued shape and the running total. -/
theorem bumpDbl_eq (l : ActivityRow) (k : ℕ) (hk : minutesOf l = (k : ℚ))
    (s : UserSummary) (hs : NatSummary s) (hb : s.all + (k : ℚ) < 2 ^ 53) :
    bumpDbl s l = bump s l ∧ NatSummary (bump s l) ∧
      (bump s l).all = s.all + (k : ℚ) := by
  rcases hs with ⟨a, b, c, h1, h2, h3, h4⟩
  have habc : ((a + b + c : ℕ) : ℚ) = (a : ℚ) + b + c := by push_cast; ring
  have hbq : (a : ℚ) + b + c + k < 2 ^ 53 := by
    rw [h4, habc] at hb
    linarith
  have ha0 : (0 : ℚ) ≤ (a : ℚ) := by positivity
  have hb0 : (0 : ℚ) ≤ (b : ℚ) := by positivity
  have hc0 : (0 : ℚ) ≤ (c : ℚ) := by positivity
  have hk0 : (0 : ℚ) ≤ (k : ℚ) := by positivity
  have hexAll : addDouble s.all (k : ℚ) = s.all + k := by
    rw [h4, addDouble_natCast (a + b + c) k (by push_cast; linarith)]
    push_cast
    ring
  have hexS : addDouble s.study (k : ℚ) = s.study + k := by
    rw [h1, addDouble_natCast a k (by push_cast; linarith)]
    push_cast
    ring
  have hexK : addDouble s.skill (k : ℚ) = s.skill + k := by
    rw [h2, addDouble_natCast b k (by push_cast; linarith)]
    push_cast
    ring
  have hexE : addDouble s.exercise (k : ℚ) = s.exercise + k := by
    rw [h3, addDouble_natCast c k (by push_cast; linarith)]
    push_cast
    ring
  refine ⟨?_, ?_, ?_⟩
  · cases hcat : l.category with
    | study => simp only [bumpDbl, bump, hcat, hk, hexS, hexAll]
    | skill => simp only [bumpDbl, bump, hcat, hk, hexK, hexAll]
    | exercise => simp only [bumpDbl, bump, hcat, hk, hexE, hexAll]
  · cases hcat : l.category with
    | study =>
      refine ⟨a + k, b, c, ?_, ?_, ?_, ?_⟩ <;>
        simp only [bump, hcat, hk, h1, h2, h3, h4] <;> push_cast <;> ring
    | skill =>
      refine ⟨a, b + k, c, ?_, ?_, ?_, ?_⟩ <;>
        simp only [bump, hcat, hk, h1, h2, h3, h4] <;> push_cast <;> ring
    | exercise =>
      refine ⟨a, b, c + k, ?_, ?_, ?_, ?_⟩ <;>
        simp only [bump, hcat, hk, h1, h2, h3, h4] <;> push_cast <;> ring
  · cases hcat : l.category with
    | study => simp only [bump, hcat, hk]
    | skill => simp only [bump, hcat, hk]
    | exercise => simp only [bump, hcat, hk]

/-- Rows with natural minutes below the `2^53` budget make the binary64
per-user fold agree with the exact fold. -/
theorem userFoldDbl_eq_exact :
    ∀ (logs : List ActivityRow) (acc : List UserSummary),
      (∀ l ∈ logs, ∃ k : ℕ, minutesOf l = (k : ℚ)) →
      (logs.map minutesOf).sum < 2 ^ 53 →
      (∀ s ∈ acc, NatSummary s ∧ s.all + (logs.map minutesOf).sum < 2 ^ 53) →
      logs.foldl upsertLogDbl acc = logs.foldl upsertLog acc := by
  intro logs
  induction logs with
  | nil => intro acc _ _ _; rfl
  | cons l rest ih =>
    intro acc hnat hsum hinv
    rcases hnat l (List.mem_cons_self l rest) with ⟨k, hk⟩
    have hnatr : ∀ x ∈ rest, ∃ m : ℕ, minutesOf x = (m : ℚ) :=
      fun x hx => hnat x (List.mem_cons_of_mem l hx)
    have hS0 : 0 ≤ (rest.map minutesOf).sum :=
      minutesSum_nonneg (minutes_nonneg_of_nat hnatr)
    have hk0 : (0 : ℚ) ≤ (k : ℚ) := by positivity
    have hsum2 : ((l :: rest).map minutesOf).sum =
        (k : ℚ) + (rest.map minutesOf).sum := by
      rw [List.map_cons, List.sum_cons, hk]
    rw [hsum2] at hsum
    simp only [hsum2] at hinv
    have hmem : ∀ s0 ∈ (if acc.any (fun s => s.user_id == l.user_id) then acc
        else acc ++ [seedSummary l]),
        NatSummary s0 ∧ s0.all + ((k : ℚ) + (rest.map minutesOf).sum) < 2 ^ 53 := by
      intro s0 hs0
      by_cases hany : acc.any (fun s => s.user_id == l.user_id) = true
      · rw [if_pos hany] at hs0
        exact hinv s0 hs0
      · rw [if_neg hany] at hs0
        rcases List.mem_append.mp hs0 with h1 | h1
        · exact hinv s0 h1
        · rw [List.mem_singleton] at h1
          subst h1
          constructor
          · refine ⟨0, 0, 0, ?_, ?_, ?_, ?_⟩ <;> simp [seedSummary]
          · simp only [seedSummary]
            linarith
    have hstep : upsertLogDbl acc l = upsertLog acc l := by
      unfold upsertLogDbl upsertLog
      apply List.map_congr_left
      intro s0 hs0
      rcases hmem s0 hs0 with ⟨hNS, hbd⟩
      by_cases hu : (s0.user_id == l.user_id) = true
      · rw [if_pos hu, if_pos hu]
        exact (bumpDbl_eq l k hk s0 hNS (by linarith)).1
      · rw [if_neg hu, if_neg hu]
    rw [List.foldl_cons, List.foldl_cons, hstep]
    apply ih (upsertLog acc l) hnatr (by linarith)
    intro s1 hs1
    unfold upsertLog at hs1
    rcases List.mem_map.mp hs1 with ⟨s0, hs0, rfl⟩
    rcases hmem s0 hs0 with ⟨hNS, hbd⟩
    by_cases hu : (s0.user_id == l.user_id) = true
    · rw [if_pos hu]
      rcases bumpDbl_eq l k hk s0 hNS (by linarith) with ⟨_, hNS2, hall⟩
      refine ⟨hNS2, ?_⟩
      rw [hall]
      linarith
    · rw [if_neg hu]
      exact ⟨hNS, by linarith⟩

/-- C1 (amended): under the program's binary64 `+=` semantics, whenever
every record carries whole-number minutes (null included, contributing 0)
and the week's total minutes stays below `2^53` — the spec's stated data
model, in which minutes are non-negative integers — every addition is
exact, so the weekly totals and every per-user summary of the weekly
window satisfy `all = study + skill + exercise` exactly, and the binary64
results coincide with the exact-arithmetic aggregation.  (With fractional
minutes the equality can fail by rounding — see the counterexample — which
is the only restriction added.) -/
theorem weekly_sum_invariant_integer_minutes (ws : ℤ) (logs : List ActivityRow)
    (hnat : ∀ l ∈ logs, ∃ k : ℕ, minutesOf l = (k : ℚ))
    (hbound : (logs.map minutesOf).sum < 2 ^ 53) :
    weeklyTotalsDbl logs ws = weeklyTotals logs ws ∧
    (weeklyTotalsDbl logs ws).all =
      (weeklyTotalsDbl logs ws).study + (weeklyTotalsDbl logs ws).skill +
        (weeklyTotalsDbl logs ws).exercise ∧
    totalsByUserDbl (weeklyLogs logs ws) = totalsByUser (weeklyLogs logs ws) ∧
    ∀ s ∈ totalsByUserDbl (weeklyLogs logs ws),
      s.all = s.study + s.skill + s.exercise := by
  have hWT : weeklyTotalsDbl logs ws = weeklyTotals logs ws := by
    unfold weeklyTotalsDbl weeklyTotals
    apply weeklyFoldDbl_eq_exact ws logs _ hnat ⟨0, 0, 0, by norm_num [Totals.mk.injEq]⟩
    simpa using hbound
  have hnn : ∀ l ∈ logs, 0 ≤ minutesOf l := minutes_nonneg_of_nat hnat
  have hnatW : ∀ l ∈ weeklyLogs logs ws, ∃ k : ℕ, minutesOf l = (k : ℚ) := by
    intro l hl
    unfold weeklyLogs at hl
    exact hnat l (List.mem_of_mem_filter hl)
  have hsumW : ((weeklyLogs logs ws).map minutesOf).sum ≤ (logs.map minutesOf).sum := by
    unfold weeklyLogs
    exact filter_minutes_sum_le _ logs hnn
  have hTBU : totalsByUserDbl (weeklyLogs logs ws) = totalsByUser (weeklyLogs logs ws) := by
    unfold totalsByUserDbl totalsByUser
    apply userFoldDbl_eq_exact _ [] hnatW (lt_of_le_of_lt hsumW hbound)
    intro s hs
    simp at hs
  refine ⟨hWT, ?_, hTBU, ?_⟩
  · rw [hWT]
    unfold weeklyTotals
    apply foldl_weeklyTotalsStep_sum
    norm_num
  · rw [hTBU]
    unfold totalsByUser
    apply totalsByUser_pred
    · intro l _
      simp [seedSummary]
    · intro s l _ hs
      cases hc : l.category <;> simp [bump, hc, hs] <;> ring
    · intro s hs
      simp at hs

/-- Witness for C1 (amended): a 30-minute study row plus a null-minutes
skill row, aggregated under binary64 arithmetic, satisfy the sum
invariant. -/
theorem weekly_sum_invariant_integer_minutes_witness :
    (weeklyTotalsDbl
        [⟨"w1", "u1", Category.study, none, some 30, 5, none⟩,
         ⟨"w2", "u1", Category.skill, none, none, 7, none⟩] 0).all =
      (weeklyTotalsDbl
        [⟨"w1", "u1", Category.study, none, some 30, 5, none⟩,
         ⟨"w2", "u1", Category.skill, none, none, 7, none⟩] 0).study +
        (weeklyTotalsDbl
          [⟨"w1", "u1", Category.study, none, some 30, 5, none⟩,
           ⟨"w2", "u1", Category.skill, none, none, 7, none⟩] 0).skill +
        (weeklyTotalsDbl
          [⟨"w1", "u1", Category.study, none, some 30, 5, none⟩,
           ⟨"w2", "u1", Category.skill, none, none, 7, none⟩] 0).exercise :=
  (weekly_sum_invariant_integer_minutes 0
    [⟨"w1", "u1", Category.study, none, some 30, 5, none⟩,
     ⟨"w2", "u1", Category.skill, none, none, 7, none⟩]
    (by
      intro l hl
      rw [List.mem_cons, List.mem_singleton] at hl
      rcases hl with rfl | rfl
      · exact ⟨30, by norm_num [minutesOf]⟩
      · exact ⟨0, by norm_num [minutesOf]⟩)
    (by norm_num [minutesOf])).2.1

/-- C2: the grace rule of the streak calculator: when the distinct active
day keys are exactly yesterday and the day before yesterday (and hence
today's key is absent), the streak is 2, not 0; moreover the cursor
decrement is applied exactly once before the counting loop and only when
today's key is absent: with today's key present the count starts at today,
otherwise it starts at yesterday. -/
theorem streak_grace_rule (tz now : ℤ) (logs : List ActivityRow) :
    (daySetOf tz logs =
        {dateKeyLocal tz now - 1, dateKeyLocal tz now - 2} →
      streak tz logs now = 2) ∧
    (dateKeyLocal tz now ∈ daySetOf tz logs →
      streak tz logs now = countRun (daySetOf tz logs) (dateKeyLocal tz now)) ∧
    (dateKeyLocal tz now ∉ daySetOf tz logs →
      streak tz logs now = countRun (daySetOf tz logs) (dateKeyLocal tz now - 1)) := by
  refine ⟨?_, ?_, ?_⟩
  · intro h
    unfold streak
    rw [h]
    rw [if_neg (by simp only [Finset.mem_insert, Finset.mem_singleton]; omega)]
    rw [countRun_spec, if_pos (by simp)]
    rw [countRun_spec,
      if_pos (by simp only [Finset.mem_insert, Finset.mem_singleton]; omega)]
    rw [countRun_spec,
      if_neg (by simp only [Finset.mem_insert, Finset.mem_singleton]; omega)]
  · intro h
    unfold streak
    rw [if_pos h]
  · intro h
    unfold streak
    rw [if_neg h]

/-- Witness for C2: records on 1970-07-19 and 1970-07-18 and a "now" on
1970-07-20 with no record that day give a streak of 2. -/
theorem streak_grace_rule_witness :
    streak 0
      [⟨"i1", "u1", Category.study, none, some 30, 17193601000, none⟩,
       ⟨"i2", "u1", Category.exercise, none, none, 17107200500, none⟩]
      17287200000 = 2 :=
  (streak_grace_rule 0 17287200000
      [⟨"i1", "u1", Category.study, none, some 30, 17193601000, none⟩,
       ⟨"i2", "u1", Category.exercise, none, none, 17107200500, none⟩]).1
    (by decide)

/-- The counting loop counts at most the day keys at or below its start
cursor. -/
theorem countRun_le_filter_card (days : Finset ℤ) :
    ∀ (n : ℕ) (c : ℤ),
      (days.filter (fun x => x ≤ c)).card ≤ n →
      countRun days c ≤ (days.filter (fun x => x ≤ c)).card := by
  intro n
  induction n with
  | zero =>
    intro c hc
    rw [countRun_spec]
    by_cases h : c ∈ days
    · exfalso
      have hm : c ∈ days.filter (fun x => x ≤ c) :=
        Finset.mem_filter.mpr ⟨h, le_refl c⟩
      have := Finset.card_pos.mpr ⟨c, hm⟩
      omega
    · rw [if_neg h]
      omega
  | succ n ih =>
    intro c hc
    rw [countRun_spec]
    by_cases h : c ∈ days
    · rw [if_pos h]
      have hlt := filter_le_card_lt days c h
      have h2 := ih (c - 1) (by omega)
      omega
    · rw [if_neg h]
      omega

/-- The counting loop counts at most the number of distinct day keys. -/
theorem countRun_le_card (days : Finset ℤ) (c : ℤ) :
    countRun days c ≤ days.card :=
  le_trans (countRun_le_filter_card days _ c (le_refl _))
    (Finset.card_filter_le days _)

/-- Building the day-key set adds at most one element per record. -/
theorem daySetOf_card_le (tz : ℤ) :
    ∀ (logs : List ActivityRow) (s : Finset ℤ),
      (logs.foldl (fun s l => insert (dateKeyLocal tz l.occurred_at) s) s).card ≤
        s.card + logs.length := by
  intro logs
  induction logs with
  | nil => intro s; simp
  | cons l rest ih =>
    intro s
    simp only [List.foldl_cons, List.length_cons]
    have h1 := ih (insert (dateKeyLocal tz l.occurred_at) s)
    have h2 := Finset.card_insert_le (dateKeyLocal tz l.occurred_at) s
    omega

/-- C9: the streak calculator is a total function (its counting loop
terminates, which is what makes `countRun` well defined), and the returned
streak is at most the number of distinct day keys of the input records,
hence at most the number of records. -/
theorem streak_terminates_bounded (tz now : ℤ) (logs : List ActivityRow) :
    streak tz logs now ≤ (daySetOf tz logs).card ∧
    (daySetOf tz logs).card ≤ logs.length := by
  constructor
  · unfold streak
    exact countRun_le_card _ _
  · have h := daySetOf_card_le tz logs ∅
    simpa [daySetOf] using h

/-- A row whose minutes are absent or zero passes through the weekly-totals
loop without changing the accumulator. -/
theorem weeklyTotalsStep_zero (ws : ℤ) (T : Totals) (r : ActivityRow)
    (h : minutesOf r = 0) : weeklyTotalsStep ws T r = T := by
  unfold weeklyTotalsStep
  rw [h]
  by_cases hw : r.occurred_at < ws
  · rw [if_pos hw]
  · rw [if_neg hw]
    cases hc : r.category <;> simp [addCat, hc]

/-- C10: a record marks its local calendar day as active for streak
purposes regardless of its `minutes` value — appending a record with
`minutes = null` yields the same streak as appending it with any numeric
minutes value — yet a record with `minutes` null or 0 contributes nothing
to the weekly totals. -/
theorem minutes_irrelevant_to_streak (tz now ws : ℤ) (logs : List ActivityRow)
    (i u : String) (c : Category) (ttl : Option String) (t : ℤ)
    (p : Option ProfileRef) (m : ℚ) :
    streak tz (logs ++ [⟨i, u, c, ttl, none, t, p⟩]) now =
      streak tz (logs ++ [⟨i, u, c, ttl, some m, t, p⟩]) now ∧
    weeklyTotals (logs ++ [⟨i, u, c, ttl, none, t, p⟩]) ws = weeklyTotals logs ws ∧
    weeklyTotals (logs ++ [⟨i, u, c, ttl, some 0, t, p⟩]) ws = weeklyTotals logs ws := by
  have hset : ∀ mo : Option ℚ,
      daySetOf tz (logs ++ [⟨i, u, c, ttl, mo, t, p⟩]) =
        insert (dateKeyLocal tz t) (daySetOf tz logs) := by
    intro mo
    unfold daySetOf
    rw [List.foldl_append]
    rfl
  refine ⟨?_, ?_, ?_⟩
  · unfold streak
    rw [hset none, hset (some m)]
  · unfold weeklyTotals
    rw [List.foldl_append]
    simp only [List.foldl_cons, List.foldl_nil]
    exact weeklyTotalsStep_zero ws _ _ rfl
  · unfold weeklyTotals
    rw [List.foldl_append]
    simp only [List.foldl_cons, List.foldl_nil]
    exact weeklyTotalsStep_zero ws _ _ (by simp [minutesOf])

/-- One step of the `maxBar`/`trueMax` fold folds in exactly `uMax u`. -/
theorem maxStep_eq (a : ℚ) (u : UserSummary) :
    max (max (max a u.study) u.skill) u.exercise = max a (uMax u) := by
  unfold uMax
  simp only [max_assoc]

/-- Starting the max fold at `max a b` factors out `a`. -/
theorem foldl_max_start :
    ∀ (users : List UserSummary) (a b : ℚ),
      users.foldl (fun mx u => max (max (max mx u.study) u.skill) u.exercise) (max a b) =
        max a (users.foldl (fun mx u => max (max (max mx u.study) u.skill) u.exercise) b) := by
  intro users
  induction users with
  | nil => intro a b; rfl
  | cons u rest ih =>
    intro a b
    simp only [List.foldl_cons]
    have h1 : max (max (max (max a b) u.study) u.skill) u.exercise =
        max a (max (max (max b u.study) u.skill) u.exercise) := by
      simp only [max_assoc]
    rw [h1, ih]

/-- `maxBar` is the true maximum per-category value floored at 1. -/
theorem maxBar_eq_max_one_trueMax (users : List UserSummary) :
    maxBar users = max 1 (trueMax users) := by
  unfold maxBar trueMax
  have h : (1 : ℚ) = max 1 0 := by norm_num
  conv_lhs => rw [h]
  exact foldl_max_start users 1 0

/-- The max fold only grows its accumulator. -/
theorem le_foldl_max :
    ∀ (users : List UserSummary) (a : ℚ),
      a ≤ users.foldl (fun mx u => max (max (max mx u.study) u.skill) u.exercise) a := by
  intro users
  induction users with
  | nil => intro a; exact le_refl a
  | cons u rest ih =>
    intro a
    simp only [List.foldl_cons]
    refine le_trans ?_ (ih _)
    exact (le_max_left a u.study).trans
      ((le_max_left _ u.skill).trans (le_max_left _ u.exercise))

/-- Every member's category values are bounded by the max fold's result. -/
theorem mem_uMax_le_foldl_max :
    ∀ (users : List UserSummary) (a : ℚ) (u : UserSummary), u ∈ users →
      uMax u ≤ users.foldl (fun mx u => max (max (max mx u.study) u.skill) u.exercise) a := by
  intro users
  induction users with
  | nil => intro a u hu; exact absurd hu (List.not_mem_nil u)
  | cons u0 rest ih =>
    intro a u hu
    simp only [List.foldl_cons]
    rcases List.mem_cons.mp hu with h | h
    · subst h
      refine le_trans ?_ (le_foldl_max rest _)
      rw [maxStep_eq]
      exact le_max_right a (uMax u)
    · exact ih _ u h

/-- `Math.round((v / mx) * 100)` lies in `[0, 100]` for `0 ≤ v ≤ mx`,
`1 ≤ mx`. -/
theorem pct_mem_bounds (v mx : ℚ) (h0 : 0 ≤ v) (h1 : v ≤ mx) (h2 : 1 ≤ mx) :
    0 ≤ pct v mx ∧ pct v mx ≤ 100 := by
  unfold pct
  have hmx : 0 < mx := by linarith
  have hq0 : 0 ≤ v / mx * 100 := by positivity
  have hq1 : v / mx * 100 ≤ 100 := by
    have hd : v / mx ≤ 1 := (div_le_one hmx).mpr h1
    linarith
  rw [round_eq]
  constructor
  · apply Int.le_floor.mpr
    push_cast
    linarith
  · have hlt : ⌊v / mx * 100 + 1 / 2⌋ < 101 := by
      apply Int.floor_lt.mpr
      push_cast
      linarith

    omega

/-- A value equal to the (positive) normalizer maps to exactly 100. -/
theorem pct_self (mx : ℚ) (h : 0 < mx) : pct mx mx = 100 := by
  unfold pct
  rw [div_self (ne_of_gt h), one_mul, round_eq, Int.floor_eq_iff]
  norm_num

/-- Counterexample to C4 as stated: with a single summary whose values are
all 0 (one zero-minutes study record), the true maximum value across all
users and categories is 0, but `maxBar` is floored to 1, so the summary
holding the true maximum maps to `round((0/1)*100) = 0`, not 100. -/
theorem pct_at_true_max_not_100 :
    totalsByUser [⟨"i1", "u1", Category.study, none, some 0, 0, none⟩] =
      [⟨"u1", "Unknown", "unknown", 0, 0, 0, 0⟩] ∧
    trueMax (totalsByUser [⟨"i1", "u1", Category.study, none, some 0, 0, none⟩]) = 0 ∧
    maxBar (totalsByUser [⟨"i1", "u1", Category.study, none, some 0, 0, none⟩]) = 1 ∧
    pct (trueMax (totalsByUser [⟨"i1", "u1", Category.study, none, some 0, 0, none⟩]))
        (maxBar (totalsByUser [⟨"i1", "u1", Category.study, none, some 0, 0, none⟩])) = 0 ∧
    pct (trueMax (totalsByUser [⟨"i1", "u1", Category.study, none, some 0, 0, none⟩]))
        (maxBar (totalsByUser [⟨"i1", "u1", Category.study, none, some 0, 0, none⟩])) ≠ 100 := by
  have h : totalsByUser [⟨"i1", "u1", Category.study, none, some 0, 0, none⟩] =
      [⟨"u1", "Unknown", "unknown", 0, 0, 0, 0⟩] := by
    norm_num [totalsByUser, upsertLog, seedSummary, bump, minutesOf]
  have ht : trueMax (totalsByUser [⟨"i1", "u1", Category.study, none, some 0, 0, none⟩]) = 0 := by
    rw [h]; norm_num [trueMax]
  have hb : maxBar (totalsByUser [⟨"i1", "u1", Category.study, none, some 0, 0, none⟩]) = 1 := by
    rw [h]; norm_num [maxBar]
  have hp : pct 0 1 = 0 := by
    unfold pct
    rw [round_eq]
    norm_num
  refine ⟨h, ht, hb, ?_, ?_⟩
  · rw [ht, hb]; exact hp
  · rw [ht, hb, hp]; norm_num

/-- C4 (amended): `maxBar` is the largest single per-category value across
all users and categories floored at 1; for inputs with non-negative minutes
every computed percentage is an integer in `[0, 100]`; and whenever the
true maximum value is at least 1 (in particular whenever any data at or
above the floor exists), the summary holding it maps to exactly 100.  (As
stated the claim fails when the true maximum is below the floor of 1 —
see the counterexample — which is the only amendment.) -/
theorem chart_scaling_bounds (logs : List ActivityRow)
    (hm : ∀ l ∈ logs, 0 ≤ minutesOf l) :
    maxBar (totalsByUser logs) = max 1 (trueMax (totalsByUser logs)) ∧
    (∀ u ∈ totalsByUser logs,
      (0 ≤ pct u.study (maxBar (totalsByUser logs)) ∧
        pct u.study (maxBar (totalsByUser logs)) ≤ 100) ∧
      (0 ≤ pct u.skill (maxBar (totalsByUser logs)) ∧
        pct u.skill (maxBar (totalsByUser logs)) ≤ 100) ∧
      (0 ≤ pct u.exercise (maxBar (totalsByUser logs)) ∧
        pct u.exercise (maxBar (totalsByUser logs)) ≤ 100)) ∧
    (1 ≤ trueMax (totalsByUser logs) →
      ∀ u ∈ totalsByUser logs,
        (u.study = trueMax (totalsByUser logs) →
          pct u.study (maxBar (totalsByUser logs)) = 100) ∧
        (u.skill = trueMax (totalsByUser logs) →
          pct u.skill (maxBar (totalsByUser logs)) = 100) ∧
        (u.exercise = trueMax (totalsByUser logs) →
          pct u.exercise (maxBar (totalsByUser logs)) = 100)) := by
  have hnn : ∀ u ∈ totalsByUser logs, 0 ≤ u.study ∧ 0 ≤ u.skill ∧ 0 ≤ u.exercise := by
    unfold totalsByUser
    apply totalsByUser_pred (fun u => 0 ≤ u.study ∧ 0 ≤ u.skill ∧ 0 ≤ u.exercise)
    · intro l _
      norm_num [seedSummary]
    · intro s l hl hs
      have hm0 := hm l hl
      cases hc : l.category <;> simp [bump, hc] <;>
        refine ⟨?_, ?_, ?_⟩ <;> linarith [hs.1, hs.2.1, hs.2.2]
    · intro s hs
      simp at hs
  have hub : ∀ u ∈ totalsByUser logs, uMax u ≤ maxBar (totalsByUser logs) := by
    intro u hu
    unfold maxBar
    exact mem_uMax_le_foldl_max (totalsByUser logs) 1 u hu
  have hmx1 : 1 ≤ maxBar (totalsByUser logs) := by
    rw [maxBar_eq_max_one_trueMax]
    exact le_max_left 1 _
  refine ⟨maxBar_eq_max_one_trueMax _, ?_, ?_⟩
  · intro u hu
    have h1 := hnn u hu
    have h2 := hub u hu
    have hs : u.study ≤ maxBar (totalsByUser logs) :=
      le_trans ((le_max_left u.study u.skill).trans (le_max_left _ u.exercise)) h2
    have hk : u.skill ≤ maxBar (totalsByUser logs) :=
      le_trans ((le_max_right u.study u.skill).trans (le_max_left _ u.exercise)) h2
    have he : u.exercise ≤ maxBar (totalsByUser logs) :=
      le_trans (le_max_right (max u.study u.skill) u.exercise) h2
    exact ⟨pct_mem_bounds _ _ h1.1 hs hmx1,
      pct_mem_bounds _ _ h1.2.1 hk hmx1,
      pct_mem_bounds _ _ h1.2.2 he hmx1⟩
  · intro h1 u hu
    have hmx : maxBar (totalsByUser logs) = trueMax (totalsByUser logs) := by
      rw [maxBar_eq_max_one_trueMax]
      exact max_eq_right h1
    have hpos : 0 < trueMax (totalsByUser logs) := by linarith
    refine ⟨fun he => ?_, fun he => ?_, fun he => ?_⟩ <;>
      rw [he, hmx] <;> exact pct_self _ hpos

/-- Witness for C4 (amended) at a concrete input: one user with a 50-minute
study record; the study bar of that user's summary gets exactly 100
percent. -/
theorem chart_scaling_bounds_witness :
    pct (⟨"u1", "Unknown", "unknown", 50, 0, 0, 50⟩ : UserSummary).study
      (maxBar (totalsByUser [⟨"i1", "u1", Category.study, none, some 50, 0, none⟩])) = 100 :=
  ((chart_scaling_bounds [⟨"i1", "u1", Category.study, none, some 50, 0, none⟩]
      (by
        intro l hl
        rw [List.mem_singleton] at hl
        subst hl
        norm_num [minutesOf])).2.2
    (by norm_num [totalsByUser, upsertLog, seedSummary, bump, minutesOf, trueMax])
    ⟨"u1", "Unknown", "unknown", 50, 0, 0, 50⟩
    (by norm_num [totalsByUser, upsertLog, seedSummary, bump, minutesOf])).1
    (by norm_num [totalsByUser, upsertLog, seedSummary, bump, minutesOf, trueMax])

/-- The per-owner day-key set built by the `streakByUser` grouping loop is
the day-key set of that owner's sub-list. -/
theorem activeDaysMap_eq_daySetOf (tz : ℤ) :
    ∀ (logs : List ActivityRow) (m0 : String → Finset ℤ) (uid : String),
      (logs.foldl (activeDaysStep tz) m0) uid =
        (ownLogs logs uid).foldl
          (fun s l => insert (dateKeyLocal tz l.occurred_at) s) (m0 uid) := by
  intro logs
  induction logs with
  | nil => intro m0 uid; rfl
  | cons l rest ih =>
    intro m0 uid
    simp only [List.foldl_cons]
    rw [ih]
    unfold ownLogs at *
    rw [List.filter_cons]
    by_cases h : uid = l.user_id
    · have hb : (l.user_id == uid) = true := beq_iff_eq.mpr h.symm
      rw [hb]
      simp only [if_true, List.foldl_cons]
      have hstep : activeDaysStep tz m0 l uid =
          insert (dateKeyLocal tz l.occurred_at) (m0 uid) := by
        unfold activeDaysStep
        rw [if_pos h]
      rw [hstep]
    · have hb : (l.user_id == uid) = false := by
        rw [beq_eq_false_iff_ne]
        exact fun hh => h hh.symm
      rw [hb]
      simp only [Bool.false_eq_true, if_false]
      have hstep : activeDaysStep tz m0 l uid = m0 uid := by
        unfold activeDaysStep
        rw [if_neg h]
      rw [hstep]

/-- C8: for every owner appearing in the record set, `streakByUser`
computed over the full unwindowed record set maps that owner to exactly the
value the single-user streak calculator returns on that owner's sub-list
with the same "today"; in particular no weekly windowing is applied, so a
streak spanning a week boundary still counts. -/
theorem streakByUser_refines_streak (tz now : ℤ) (logs : List ActivityRow)
    (uid : String) (h : logs.any (fun l => l.user_id == uid) = true) :
    streakByUser tz logs now uid = some (streak tz (ownLogs logs uid) now) := by
  unfold streakByUser
  rw [if_pos h]
  have hset : activeDaysMap tz logs uid = daySetOf tz (ownLogs logs uid) := by
    unfold activeDaysMap daySetOf
    exact activeDaysMap_eq_daySetOf tz logs (fun _ => ∅) uid
  rw [hset]
  rfl

/-- Witness for C8: two owners, one with records on both sides of a week
boundary; the per-user streak map agrees with the single-user calculator on
owner "a"'s sub-list. -/
theorem streakByUser_refines_streak_witness :
    streakByUser 0
      [⟨"x1", "a", Category.study, none, some 10, 8640000000, none⟩,
       ⟨"x2", "b", Category.skill, none, none, 8600000000, none⟩,
       ⟨"x3", "a", Category.exercise, none, some 5, 8553600000, none⟩]
      8700000000 "a" =
      some (streak 0
        (ownLogs
          [⟨"x1", "a", Category.study, none, some 10, 8640000000, none⟩,
           ⟨"x2", "b", Category.skill, none, none, 8600000000, none⟩,
           ⟨"x3", "a", Category.exercise, none, some 5, 8553600000, none⟩] "a")
        8700000000) :=
  streakByUser_refines_streak 0 8700000000
    [⟨"x1", "a", Category.study, none, some 10, 8640000000, none⟩,
     ⟨"x2", "b", Category.skill, none, none, 8600000000, none⟩,
     ⟨"x3", "a", Category.exercise, none, some 5, 8553600000, none⟩] "a" (by decide)

/-- C3: the claim says the aggregators fail loudly on an unrecognized
category; at runtime they do not.  A single in-window record with category
`"yoga"` and 10 minutes silently yields totals `{0, 0, 0, 10}` from the
weekly aggregator — no defect is signalled, the contribution reaches `all`
but no category, and the `all = study + skill + exercise` invariant is
silently corrupted.  The per-user aggregator behaves the same way. -/
theorem unknown_category_silently_corrupts :
    weeklyTotalsRun [⟨"u1", "yoga", some 10, 0, none⟩] 0 = ⟨0, 0, 0, 10⟩ ∧
    (weeklyTotalsRun [⟨"u1", "yoga", some 10, 0, none⟩] 0).all ≠
      (weeklyTotalsRun [⟨"u1", "yoga", some 10, 0, none⟩] 0).study +
        (weeklyTotalsRun [⟨"u1", "yoga", some 10, 0, none⟩] 0).skill +
        (weeklyTotalsRun [⟨"u1", "yoga", some 10, 0, none⟩] 0).exercise ∧
    totalsByUserRun [⟨"u1", "yoga", some 10, 0, none⟩] =
      [⟨"u1", "Unknown", "unknown", 0, 0, 0, 10⟩] := by
  have h1 : weeklyTotalsRun [⟨"u1", "yoga", some 10, 0, none⟩] 0 = ⟨0, 0, 0, 10⟩ := by
    norm_num [weeklyTotalsRun, weeklyTotalsRunStep]
    decide
  have h2 : totalsByUserRun [⟨"u1", "yoga", some 10, 0, none⟩] =
      [⟨"u1", "Unknown", "unknown", 0, 0, 0, 10⟩] := by
    norm_num [totalsByUserRun, upsertLogRun, seedSummaryRun, bumpRun]
    decide
  refine ⟨h1, ?_, h2⟩
  rw [h1]
  norm_num
